import Mathlib

/-
  Verification development for the DIFF_EV differential-evolution optimizer
  (src/DEV_MA/DIFF_EV.CPP).  Doubles are modelled as exact rationals, the
  C cast (int) as truncation toward zero, and the caller-supplied criterion
  function as an arbitrary function from parameter vectors to rationals.
-/

set_option autoImplicit false

namespace DiffEv

/-- Truncation toward zero: the effect of the C cast (int) on a double value. -/
def c_trunc (x : ℚ) : ℤ := if 0 ≤ x then ⌊x⌋ else -⌊-x⌋

/-- Integer rounding as performed by ensure_legal (lines 529-534): for a
nonnegative value it computes (int)(x + 0.5), for a negative value it
computes -(int)(0.5 - x). -/
def c_round (x : ℚ) : ℤ := if 0 ≤ x then c_trunc (x + 1/2) else -(c_trunc (1/2 - x))

/-- Rounding to the nearest integer with ties away from zero, the wording used
by the specification for the Legality Enforcer's integer handling. -/
def roundAway (x : ℚ) : ℤ := if 0 ≤ x then round x else -(round (-x))

/-- The penalty scale 1.e10 used by ensure_legal. -/
def penScale : ℚ := 10 ^ 10

/-- One loop iteration of ensure_legal (lines 528-543): round the value when
the dimension is integer-typed, then clamp above, then clamp below, adding
penScale times each overshoot to the penalty.  Returns (repaired value,
penalty contribution). -/
def legal_dim (isInt : Bool) (lo hi x : ℚ) : ℚ × ℚ :=
  let x1 : ℚ := if isInt then ((c_round x : ℤ) : ℚ) else x
  let x2 : ℚ := if x1 > hi then hi else x1
  (if x2 < lo then lo else x2,
   (if x1 > hi then penScale * (x1 - hi) else 0) +
     (if x2 < lo then penScale * (lo - x2) else 0))

/-- ensure_legal (lines 521-546): repair the whole parameter vector; the
first nints dimensions are integer-typed.  Returns the repaired vector
together with the accumulated penalty. -/
def ensure_legal : ℕ → List ℚ → List ℚ → List ℚ → List ℚ × ℚ
  | nints, lo :: lows, hi :: highs, x :: xs =>
    let d := legal_dim (decide (0 < nints)) lo hi x
    let r := ensure_legal (nints - 1) lows highs xs
    (d.1 :: r.1, d.2 + r.2)
  | _, _, _, _ => ([], 0)

/-- Modelled from the spec: per-dimension repaired value of the Legality
Enforcer, written in the spec's clamp/round vocabulary. -/
def legal_value_spec (isInt : Bool) (lo hi x : ℚ) : ℚ :=
  let y : ℚ := if isInt then ((roundAway x : ℤ) : ℚ) else x
  max lo (min y hi)

/-- Modelled from the spec: per-dimension penalty of the Legality Enforcer,
with the overshoot measured on the rounded, pre-clamp value. -/
def legal_pen_spec (isInt : Bool) (lo hi x : ℚ) : ℚ :=
  let y : ℚ := if isInt then ((roundAway x : ℤ) : ℚ) else x
  penScale * max (y - hi) 0 + penScale * max (lo - min y hi) 0

/-- Spec-side formulation of the whole Legality Enforcer. -/
def legal_spec : ℕ → List ℚ → List ℚ → List ℚ → List ℚ × ℚ
  | nints, lo :: lows, hi :: highs, x :: xs =>
    let r := legal_spec (nints - 1) lows highs xs
    (legal_value_spec (decide (0 < nints)) lo hi x :: r.1,
     legal_pen_spec (decide (0 < nints)) lo hi x + r.2)
  | _, _, _, _ => ([], 0)

/-- Bounds sanity: each lower bound is at most its upper bound (and the two
bound lists have equal length). -/
def boundsOK : List ℚ → List ℚ → Bool
  | [], [] => true
  | lo :: lows, hi :: highs => decide (lo ≤ hi) && boundsOK lows highs
  | _, _ => false

/-- Every parameter lies within its configured bounds (and all three lists
have equal length). -/
def inBounds : List ℚ → List ℚ → List ℚ → Bool
  | [], [], [] => true
  | lo :: lows, hi :: highs, x :: xs =>
    (decide (lo ≤ x) && decide (x ≤ hi)) && inBounds lows highs xs
  | _, _, _ => false

/-- The first nints parameters hold exact integer values. -/
def intsIntegral : ℕ → List ℚ → Bool
  | 0, _ => true
  | _ + 1, [] => true
  | n + 1, x :: xs => decide (x = ((⌊x⌋ : ℤ) : ℚ)) && intsIntegral n xs

section RoundingLemmas

theorem c_trunc_of_nonneg {x : ℚ} (h : 0 ≤ x) : c_trunc x = ⌊x⌋ := by
  simp [c_trunc, h]

theorem c_trunc_intCast (m : ℤ) : c_trunc ((m : ℤ) : ℚ) = m := by
  by_cases h : (0:ℚ) ≤ (m : ℚ)
  · simp [c_trunc, h]
  · push_neg at h
    simp only [c_trunc, if_neg (not_le.mpr h)]
    rw [← Int.cast_neg, Int.floor_intCast]
    omega

theorem c_round_eq_roundAway (x : ℚ) : c_round x = roundAway x := by
  by_cases h : 0 ≤ x
  · have h2 : (0:ℚ) ≤ x + 1/2 := by linarith
    rw [c_round, roundAway, if_pos h, if_pos h, c_trunc_of_nonneg h2, round_eq]
  · push_neg at h
    have h2 : (0:ℚ) ≤ 1/2 - x := by linarith
    simp only [c_round, roundAway, if_neg (not_le.mpr h), c_trunc_of_nonneg h2, round_eq]
    norm_num
    congr 1
    ring_nf

theorem c_round_intCast (m : ℤ) : c_round ((m : ℤ) : ℚ) = m := by
  rw [c_round_eq_roundAway]
  by_cases h : (0:ℚ) ≤ (m : ℚ)
  · simp [roundAway, h]
  · simp only [roundAway, if_neg h]
    rw [← Int.cast_neg, round_intCast]
    omega

end RoundingLemmas

section LegalDimLemmas

theorem clamp_value_eq (lo hi y : ℚ) :
    (if (if y > hi then hi else y) < lo then lo else (if y > hi then hi else y)) =
      max lo (min y hi) := by
  by_cases h1 : y > hi
  · rw [min_eq_right h1.le]
    by_cases h2 : hi < lo
    · simp [h1, h2, max_eq_left h2.le]
    · simp [h1, h2, max_eq_right (not_lt.mp h2)]
  · rw [min_eq_left (not_lt.mp h1)]
    by_cases h2 : y < lo
    · simp [h1, h2, max_eq_left h2.le]
    · simp [h1, h2, max_eq_right (not_lt.mp h2)]

theorem clamp_pen_eq (lo hi y : ℚ) :
    ((if y > hi then penScale * (y - hi) else 0) +
      (if (if y > hi then hi else y) < lo then
        penScale * (lo - (if y > hi then hi else y)) else 0)) =
      penScale * max (y - hi) 0 + penScale * max (lo - min y hi) 0 := by
  by_cases h1 : y > hi
  · rw [min_eq_right h1.le]
    by_cases h2 : hi < lo
    · simp only [if_pos h1, if_pos h2]
      rw [max_eq_left (by linarith), max_eq_left (by linarith)]
    · simp only [if_pos h1, if_neg h2]
      rw [max_eq_left (by linarith), max_eq_right (by linarith), mul_zero, add_zero]
  · rw [min_eq_left (not_lt.mp h1)]
    by_cases h2 : y < lo
    · simp only [if_neg h1, if_pos h2]
      rw [max_eq_right (by linarith), max_eq_left (by linarith), mul_zero]
    · simp only [if_neg h1, if_neg h2]
      rw [max_eq_right (by linarith), max_eq_right (by linarith), mul_zero]

/-- The loop body of ensure_legal agrees with the specification's
round-then-clamp description, with the penalty overshoot measured on the
rounded, pre-clamp value. -/
theorem legal_dim_eq_spec (b : Bool) (lo hi x : ℚ) :
    legal_dim b lo hi x = (legal_value_spec b lo hi x, legal_pen_spec b lo hi x) := by
  cases b <;>
    simp only [legal_dim, legal_value_spec, legal_pen_spec, c_round_eq_roundAway,
      Bool.false_eq_true, if_false, if_true, Prod.mk.injEq] <;>
    exact ⟨clamp_value_eq _ _ _, clamp_pen_eq _ _ _⟩

end LegalDimLemmas

section EnsureLegalLemmas

/-- ensure_legal computes exactly the specification's description: round the
integer-typed dimensions half away from zero, clamp every dimension into
its bounds, and charge penScale times the overshoot of the rounded value
past either bound. -/
theorem ensure_legal_eq_spec :
    ∀ (nints : ℕ) (lows highs xs : List ℚ),
      ensure_legal nints lows highs xs = legal_spec nints lows highs xs := by
  intro nints lows highs xs
  induction xs generalizing nints lows highs with
  | nil => cases lows <;> cases highs <;> rfl
  | cons x xs ih =>
    cases lows with
    | nil => rfl
    | cons lo lows =>
      cases highs with
      | nil => rfl
      | cons hi highs =>
        simp only [ensure_legal, legal_spec, legal_dim_eq_spec, ih]

theorem legal_dim_fix {b : Bool} {lo hi x : ℚ}
    (hint : b = true → ∃ m : ℤ, x = (m : ℚ)) (hlo : lo ≤ x) (hhi : x ≤ hi) :
    legal_dim b lo hi x = (x, 0) := by
  have hx1 : (if b then ((c_round x : ℤ) : ℚ) else x) = x := by
    cases b with
    | false => simp
    | true =>
      obtain ⟨m, hm⟩ := hint rfl
      simp [hm, c_round_intCast]
  simp only [legal_dim, hx1, if_neg (not_lt.mpr hhi), if_neg (not_lt.mpr hlo), add_zero]

/-- On a vector that is within bounds and whose integer-typed dimensions are
exact integers, ensure_legal changes nothing and returns zero penalty. -/
theorem ensure_legal_fix :
    ∀ (nints : ℕ) (lows highs xs : List ℚ),
      inBounds lows highs xs = true → intsIntegral nints xs = true →
      ensure_legal nints lows highs xs = (xs, 0) := by
  intro nints lows highs xs
  induction xs generalizing nints lows highs with
  | nil =>
    cases lows with
    | nil => cases highs <;> simp [inBounds, ensure_legal]
    | cons lo lows => simp [inBounds]
  | cons x xs ih =>
    cases lows with
    | nil => simp [inBounds]
    | cons lo lows =>
      cases highs with
      | nil => simp [inBounds]
      | cons hi highs =>
        intro hb hint
        simp only [inBounds, Bool.and_eq_true, decide_eq_true_eq] at hb
        obtain ⟨⟨hlo, hhi⟩, hbtail⟩ := hb
        have hint1 : (decide (0 < nints)) = true → ∃ m : ℤ, x = (m : ℚ) := by
          intro hpos
          simp only [decide_eq_true_eq] at hpos
          obtain ⟨n, rfl⟩ : ∃ n, nints = n + 1 := ⟨nints - 1, by omega⟩
          simp only [intsIntegral, Bool.and_eq_true, decide_eq_true_eq] at hint
          exact ⟨⌊x⌋, hint.1⟩
        have htail : intsIntegral (nints - 1) xs = true := by
          match nints, hint with
          | 0, _ => simp [intsIntegral]
          | n + 1, hint =>
            simp only [intsIntegral, Bool.and_eq_true] at hint
            simpa using hint.2
        simp only [ensure_legal, legal_dim_fix hint1 hlo hhi, ih (nints - 1) lows highs hbtail htail]
        simp

theorem legal_dim_mem {b : Bool} {lo hi : ℚ} (x : ℚ) (h : lo ≤ hi) :
    lo ≤ (legal_dim b lo hi x).1 ∧ (legal_dim b lo hi x).1 ≤ hi := by
  simp only [legal_dim]
  split_ifs with h1 h2 h2 <;> constructor <;> linarith

/-- ensure_legal always produces a vector inside the configured bounds. -/
theorem ensure_legal_inBounds :
    ∀ (nints : ℕ) (lows highs xs : List ℚ),
      boundsOK lows highs = true → xs.length = lows.length →
      inBounds lows highs (ensure_legal nints lows highs xs).1 = true := by
  intro nints lows highs xs
  induction xs generalizing nints lows highs with
  | nil =>
    intro hb hlen
    cases lows with
    | nil => cases highs with
      | nil => simp [ensure_legal, inBounds]
      | cons hi highs => simp [boundsOK] at hb
    | cons lo lows => simp at hlen
  | cons x xs ih =>
    intro hb hlen
    cases lows with
    | nil => simp at hlen
    | cons lo lows =>
      cases highs with
      | nil => simp [boundsOK] at hb
      | cons hi highs =>
        simp only [boundsOK, Bool.and_eq_true, decide_eq_true_eq] at hb
        simp only [List.length_cons, Nat.succ_inj] at hlen
        have hm := @legal_dim_mem (decide (0 < nints)) lo hi x hb.1
        simp only [ensure_legal, inBounds, Bool.and_eq_true, decide_eq_true_eq]
        exact ⟨⟨hm.1, hm.2⟩, ih (nints - 1) lows highs hb.2 hlen⟩

end EnsureLegalLemmas

section ListLemmas

theorem list_set_getD_self : ∀ (l : List ℚ) (k : ℕ), k < l.length → l.set k (l.getD k 0) = l
  | [], k, h => by simp at h
  | x :: xs, 0, _ => by simp
  | x :: xs, k + 1, h => by
    simp only [List.set_cons_succ, List.getD_cons_succ]
    rw [list_set_getD_self xs k (by simpa using h)]

theorem list_getD_set_self : ∀ (l : List ℚ) (k : ℕ) (v : ℚ),
    k < l.length → (l.set k v).getD k 0 = v
  | [], k, v, h => by simp at h
  | x :: xs, 0, v, _ => by simp
  | x :: xs, k + 1, v, h => by
    simp only [List.set_cons_succ, List.getD_cons_succ]
    exact list_getD_set_self xs k v (by simpa using h)

theorem list_set_of_len_le : ∀ (l : List ℚ) (k : ℕ) (v : ℚ), l.length ≤ k → l.set k v = l
  | [], _, _, _ => by simp
  | x :: xs, 0, v, h => by simp at h
  | x :: xs, k + 1, v, h => by
    simp only [List.set_cons_succ]
    rw [list_set_of_len_le xs k v (by simpa using h)]

theorem inBounds_length : ∀ {lows highs xs : List ℚ}, inBounds lows highs xs = true →
    xs.length = lows.length ∧ highs.length = lows.length := by
  intro lows highs xs
  induction xs generalizing lows highs with
  | nil => cases lows <;> cases highs <;> simp [inBounds]
  | cons x xs ih =>
    cases lows with
    | nil => simp [inBounds]
    | cons lo lows =>
      cases highs with
      | nil => simp [inBounds]
      | cons hi highs =>
        intro h
        simp only [inBounds, Bool.and_eq_true] at h
        have := ih h.2
        simp [this.1, this.2]

theorem inBounds_getD : ∀ {lows highs xs : List ℚ}, inBounds lows highs xs = true →
    ∀ k, k < xs.length → lows.getD k 0 ≤ xs.getD k 0 ∧ xs.getD k 0 ≤ highs.getD k 0 := by
  intro lows highs xs
  induction xs generalizing lows highs with
  | nil => intro h k hk; simp at hk
  | cons x xs ih =>
    cases lows with
    | nil => simp [inBounds]
    | cons lo lows =>
      cases highs with
      | nil => simp [inBounds]
      | cons hi highs =>
        intro h k hk
        simp only [inBounds, Bool.and_eq_true, decide_eq_true_eq] at h
        cases k with
        | zero => simpa using h.1
        | succ k => exact ih h.2 k (by simpa using hk)

theorem inBounds_set : ∀ {lows highs xs : List ℚ}, inBounds lows highs xs = true →
    ∀ k (v : ℚ), lows.getD k 0 ≤ v → v ≤ highs.getD k 0 →
      inBounds lows highs (xs.set k v) = true := by
  intro lows highs xs
  induction xs generalizing lows highs with
  | nil => intro h k v _ _; cases lows <;> cases highs <;> simpa [inBounds] using h
  | cons x xs ih =>
    cases lows with
    | nil => simp [inBounds]
    | cons lo lows =>
      cases highs with
      | nil => simp [inBounds]
      | cons hi highs =>
        intro h k v hlo hhi
        simp only [inBounds, Bool.and_eq_true, decide_eq_true_eq] at h
        cases k with
        | zero =>
          simp only [List.set_cons_zero, inBounds, Bool.and_eq_true, decide_eq_true_eq]
          exact ⟨⟨by simpa using hlo, by simpa using hhi⟩, h.2⟩
        | succ k =>
          simp only [List.set_cons_succ, inBounds, Bool.and_eq_true, decide_eq_true_eq]
          exact ⟨h.1, ih h.2 k v (by simpa using hlo) (by simpa using hhi)⟩

end ListLemmas

section ClaimC2

/-- C2: counterexample to the claim's penalty formula.  For the single
integer dimension with bounds [0, 4] and raw value 4.6, the code first
rounds to 5 and only then measures the overshoot, charging penScale * 1;
the claim's pre-rounding overshoot would be penScale * 0.6. -/
theorem C2_counterexample :
    (ensure_legal 1 [0] [4] [23/5]).2 = penScale * 1 ∧
      (ensure_legal 1 [0] [4] [23/5]).2 ≠ penScale * ((23:ℚ)/5 - 4) := by
  constructor
  · norm_num [ensure_legal, legal_dim, c_round, c_trunc, penScale]
  · norm_num [ensure_legal, legal_dim, c_round, c_trunc, penScale]

/-- C2 (amended): ensure_legal rounds each of the first nints dimensions to
the nearest integer with ties away from zero, clamps every dimension into
its bounds, and returns as penalty the sum over dimensions of penScale
times the overshoot past either bound of the ROUNDED, pre-clamp value. -/
theorem C2_ensure_legal_amended (nints : ℕ) (lows highs xs : List ℚ) :
    ensure_legal nints lows highs xs = legal_spec nints lows highs xs :=
  ensure_legal_eq_spec nints lows highs xs

end ClaimC2

section ClaimC10

/-- C10: counterexample.  The in-bounds vector [2.4] with one integer
dimension and bounds [0, 5] is changed by ensure_legal (its lone entry is
rounded to 2), so ensure_legal is not a no-op on every legal input. -/
theorem C10_counterexample :
    inBounds [0] [5] [12/5] = true ∧ (ensure_legal 1 [0] [5] [12/5]).1 ≠ [12/5] := by
  constructor
  · norm_num [inBounds]
  · norm_num [ensure_legal, legal_dim, c_round, c_trunc, penScale]

/-- C10 (amended): on a vector lying within bounds whose integer-typed
dimensions already hold exact integers, ensure_legal returns zero penalty
and leaves every element unchanged. -/
theorem C10_legal_noop_amended (nints : ℕ) (lows highs xs : List ℚ)
    (hb : inBounds lows highs xs = true) (hint : intsIntegral nints xs = true) :
    ensure_legal nints lows highs xs = (xs, 0) :=
  ensure_legal_fix nints lows highs xs hb hint

/-- C10 witness: the amended theorem applied to a concrete legal vector. -/
theorem C10_witness : ensure_legal 1 [0] [5] [2] = ([2], 0) :=
  C10_legal_noop_amended 1 [0] [5] [2] (by decide) (by decide)

end ClaimC10

/-- A population member: the parameter values plus the trailing criterion
score stored after them (params[nvars] in the C code). -/
structure Candidate where
  params : List ℚ
  score : ℚ
deriving DecidableEq

/-- Pointwise update of a vector viewed as a function of the dimension index
(the effect of the C assignment dest[j] = v). -/
def upd (f : ℕ → ℚ) (i : ℕ) (v : ℚ) : ℕ → ℚ := fun n => if n = i then v else f n

/-- The crossover loop of diff_ev (lines 272-282).  The loop counter i runs
from nvars-1 down to 0 and j rotates through the dimensions starting at the
random start index.  The value u i stands for the unifrand() draw made when
iteration i tests pcross (when the forced branch fires at i = 0 the C code
short-circuits and draws nothing, so u 0 is simply unused there).  Returns
the child as a function of the dimension index together with the final
used_mutated_parameter flag. -/
def crossover_go (nvars : ℕ) (pcross mdev : ℚ) (u : ℕ → ℚ) (p1 p2 d1 d2 : ℕ → ℚ) :
    ℕ → ℕ → Bool → (ℕ → ℚ) → (ℕ → ℚ) × Bool
  | 0, _, used, acc => (acc, used)
  | n + 1, j, used, acc =>
    if (n = 0 ∧ used = false) ∨ u n < pcross then
      crossover_go nvars pcross mdev u p1 p2 d1 d2 n ((j + 1) % nvars) true
        (upd acc j (p2 j + mdev * (d1 j - d2 j)))
    else
      crossover_go nvars pcross mdev u p1 p2 d1 d2 n ((j + 1) % nvars) used (upd acc j (p1 j))

/-- Whole crossover: all nvars iterations starting from dimension jstart with
the used_mutated_parameter flag clear.  The initial contents of the
destination slot are irrelevant (every dimension is written); they are
modelled as zeros. -/
def crossover (nvars jstart : ℕ) (pcross mdev : ℚ) (u : ℕ → ℚ) (p1 p2 d1 d2 : ℕ → ℚ) :
    (ℕ → ℚ) × Bool :=
  crossover_go nvars pcross mdev u p1 p2 d1 d2 nvars jstart false (fun _ => 0)

/-- The legalized child vector built by one DE step (lines 269-290):
crossover into the destination slot, then ensure_legal. -/
def de_child (nints nvars : ℕ) (lows highs : List ℚ) (p2 d1 d2 : ℕ → ℚ)
    (jstart : ℕ) (u : ℕ → ℚ) (pcross mdev : ℚ) (p1 : ℕ → ℚ) : List ℚ :=
  (ensure_legal nints lows highs
    ((List.range nvars).map (crossover nvars jstart pcross mdev u p1 p2 d1 d2).1)).1

/-- One full child construction / evaluation / selection step of the
generational loop (lines 269-316): build the legal child, evaluate it, keep
it exactly when it beats parent1, else copy parent1 (parameters and score)
into the destination slot. -/
def de_step (criter : List ℚ → ℚ) (nints nvars : ℕ) (lows highs : List ℚ)
    (parent1 : Candidate) (p2 d1 d2 : ℕ → ℚ) (jstart : ℕ) (u : ℕ → ℚ)
    (pcross mdev : ℚ) : Candidate :=
  let child := de_child nints nvars lows highs p2 d1 d2 jstart u pcross mdev
    (fun i => parent1.params.getD i 0)
  let value := criter child
  if value > parent1.score then ⟨child, value⟩ else parent1

section ClaimC3

/-- C3: after the selection step the destination slot holds the evaluated
child (with its score stored) exactly when the child's score strictly
exceeds parent1's stored score, and otherwise a full copy of parent1; in
both cases the destination's score is at least parent1's score. -/
theorem C3_selection (criter : List ℚ → ℚ) (nints nvars : ℕ) (lows highs : List ℚ)
    (parent1 : Candidate) (p2 d1 d2 : ℕ → ℚ) (jstart : ℕ) (u : ℕ → ℚ)
    (pcross mdev : ℚ) :
    parent1.score ≤
        (de_step criter nints nvars lows highs parent1 p2 d1 d2 jstart u pcross mdev).score ∧
      (criter (de_child nints nvars lows highs p2 d1 d2 jstart u pcross mdev
            (fun i => parent1.params.getD i 0)) > parent1.score →
        de_step criter nints nvars lows highs parent1 p2 d1 d2 jstart u pcross mdev =
          ⟨de_child nints nvars lows highs p2 d1 d2 jstart u pcross mdev
              (fun i => parent1.params.getD i 0),
            criter (de_child nints nvars lows highs p2 d1 d2 jstart u pcross mdev
              (fun i => parent1.params.getD i 0))⟩) ∧
      (¬ criter (de_child nints nvars lows highs p2 d1 d2 jstart u pcross mdev
            (fun i => parent1.params.getD i 0)) > parent1.score →
        de_step criter nints nvars lows highs parent1 p2 d1 d2 jstart u pcross mdev =
          parent1) := by
  by_cases h : criter (de_child nints nvars lows highs p2 d1 d2 jstart u pcross mdev
      (fun i => parent1.params.getD i 0)) > parent1.score
  · refine ⟨?_, fun _ => ?_, fun hc => absurd h hc⟩
    · simp only [de_step, if_pos h]
      exact le_of_lt h
    · simp only [de_step, if_pos h]
  · refine ⟨?_, fun hc => absurd hc h, fun _ => ?_⟩
    · simp only [de_step, if_neg h]
      exact le_refl _
    · simp only [de_step, if_neg h]

/-- C3 witness: the selection step at a concrete input. -/
theorem C3_witness :
    (0:ℚ) ≤ (de_step (fun _ => 1) 0 1 [-1] [1] ⟨[0], 0⟩ (fun _ => 0) (fun _ => 0)
        (fun _ => 0) 0 (fun _ => 0) (1/2) 1).score ∧
      de_step (fun _ => 1) 0 1 [-1] [1] ⟨[0], 0⟩ (fun _ => 0) (fun _ => 0)
          (fun _ => 0) 0 (fun _ => 0) (1/2) 1 =
        ⟨de_child 0 1 [-1] [1] (fun _ => 0) (fun _ => 0) (fun _ => 0) 0 (fun _ => 0) (1/2) 1
            (fun i => (Candidate.mk [0] 0).params.getD i 0), 1⟩ := by
  have h := C3_selection (fun _ => 1) 0 1 [-1] [1] ⟨[0], 0⟩ (fun _ => 0) (fun _ => 0)
    (fun _ => 0) 0 (fun _ => 0) (1/2) 1
  exact ⟨h.1, h.2.1 (by norm_num)⟩

end ClaimC3

section ClaimC4

theorem crossover_go_succ (nvars : ℕ) (pcross mdev : ℚ) (u p1 p2 d1 d2 : ℕ → ℚ)
    (n j : ℕ) (used : Bool) (acc : ℕ → ℚ) :
    crossover_go nvars pcross mdev u p1 p2 d1 d2 (n + 1) j used acc =
      if (n = 0 ∧ used = false) ∨ u n < pcross then
        crossover_go nvars pcross mdev u p1 p2 d1 d2 n ((j + 1) % nvars) true
          (upd acc j (p2 j + mdev * (d1 j - d2 j)))
      else
        crossover_go nvars pcross mdev u p1 p2 d1 d2 n ((j + 1) % nvars) used
          (upd acc j (p1 j)) := rfl

theorem crossover_go_flag_mono (nvars : ℕ) (pcross mdev : ℚ) (u p1 p2 d1 d2 : ℕ → ℚ) :
    ∀ (iters j : ℕ) (acc : ℕ → ℚ),
      (crossover_go nvars pcross mdev u p1 p2 d1 d2 iters j true acc).2 = true := by
  intro iters
  induction iters with
  | zero => intro j acc; rfl
  | succ n ih =>
    intro j acc
    by_cases h : (n = 0 ∧ (true : Bool) = false) ∨ u n < pcross
    · simp only [crossover_go, if_pos h]
      exact ih _ _
    · simp only [crossover_go, if_neg h]
      exact ih _ _

theorem crossover_go_flag_forced (nvars : ℕ) (pcross mdev : ℚ) (u p1 p2 d1 d2 : ℕ → ℚ) :
    ∀ (iters : ℕ), 1 ≤ iters → ∀ (j : ℕ) (used : Bool) (acc : ℕ → ℚ),
      (crossover_go nvars pcross mdev u p1 p2 d1 d2 iters j used acc).2 = true := by
  intro iters
  induction iters with
  | zero => intro h; omega
  | succ n ih =>
    intro _ j used acc
    cases used with
    | true => exact crossover_go_flag_mono nvars pcross mdev u p1 p2 d1 d2 _ _ _
    | false =>
      simp only [crossover_go, eq_self_iff_true, and_true]
      by_cases h : n = 0 ∨ u n < pcross
      · rw [if_pos h]
        exact crossover_go_flag_mono nvars pcross mdev u p1 p2 d1 d2 _ _ _
      · rw [if_neg h]
        push_neg at h
        exact ih (by omega) _ _ _

/-- C4: the crossover loop always takes at least one dimension from the
mutated expression (the used_mutated_parameter flag is true at loop end for
every draw sequence), and for pcross = 0 with nvars = 5 exactly one
dimension — the final dimension visited in the rotation starting at the
random start index — holds the mutated value while every other dimension is
copied from Parent1. -/
theorem C4_forced_mutation :
    (∀ (nvars jstart : ℕ) (pcross mdev : ℚ) (u p1 p2 d1 d2 : ℕ → ℚ), 1 ≤ nvars →
      (crossover nvars jstart pcross mdev u p1 p2 d1 d2).2 = true) ∧
    (∀ (jstart : ℕ) (mdev : ℚ) (u p1 p2 d1 d2 : ℕ → ℚ), jstart < 5 → (∀ i, 0 ≤ u i) →
      (crossover 5 jstart 0 mdev u p1 p2 d1 d2).1 ((jstart + 4) % 5) =
          p2 ((jstart + 4) % 5) + mdev * (d1 ((jstart + 4) % 5) - d2 ((jstart + 4) % 5)) ∧
        ∀ d, d < 5 → d ≠ (jstart + 4) % 5 →
          (crossover 5 jstart 0 mdev u p1 p2 d1 d2).1 d = p1 d) := by
  constructor
  · intro nvars jstart pcross mdev u p1 p2 d1 d2 h
    exact crossover_go_flag_forced nvars pcross mdev u p1 p2 d1 d2 nvars h jstart false _
  · intro jstart mdev u p1 p2 d1 d2 hj hu
    have h1 : ¬ u 1 < 0 := not_lt.mpr (hu 1)
    have h2 : ¬ u 2 < 0 := not_lt.mpr (hu 2)
    have h3 : ¬ u 3 < 0 := not_lt.mpr (hu 3)
    have h4 : ¬ u 4 < 0 := not_lt.mpr (hu 4)
    interval_cases jstart <;>
      (unfold crossover
       rw [crossover_go_succ, if_neg (by simp [h4]), crossover_go_succ, if_neg (by simp [h3]),
         crossover_go_succ, if_neg (by simp [h2]), crossover_go_succ, if_neg (by simp [h1]),
         crossover_go_succ, if_pos (Or.inl ⟨rfl, rfl⟩)]
       refine ⟨by norm_num [crossover_go, upd], ?_⟩
       intro d hd hne
       interval_cases d <;> (try norm_num at hne) <;> norm_num [crossover_go, upd])

/-- C4 witness: the forced-mutation flag and the pcross = 0, nvars = 5
characterization at concrete inputs. -/
theorem C4_witness :
    (crossover 1 0 (1/2) 1 (fun _ => 0) (fun _ => 0) (fun _ => 0) (fun _ => 0)
        (fun _ => 0)).2 = true ∧
      (crossover 5 0 0 1 (fun _ => 1/2) (fun _ => 3) (fun _ => 7) (fun _ => 2)
          (fun _ => 1)).1 4 = 8 ∧
      (crossover 5 0 0 1 (fun _ => 1/2) (fun _ => 3) (fun _ => 7) (fun _ => 2)
          (fun _ => 1)).1 2 = 3 := by
  have hflag := C4_forced_mutation.1 1 0 (1/2) 1 (fun _ => 0) (fun _ => 0) (fun _ => 0)
    (fun _ => 0) (fun _ => 0) (by norm_num)
  have hchar := C4_forced_mutation.2 0 1 (fun _ => 1/2) (fun _ => 3) (fun _ => 7)
    (fun _ => 2) (fun _ => 1) (by norm_num) (fun i => by norm_num)
  refine ⟨hflag, ?_, ?_⟩
  · have h := hchar.1
    norm_num at h ⊢
    exact h
  · have h := hchar.2 2 (by norm_num) (by norm_num)
    exact h

end ClaimC4

/-- The guarded best-so-far update (lines 150-153, 304-310, 440-446):
grand_best is overwritten only by a strictly greater score. -/
def update_grand_best (gb v : ℚ) : ℚ := if v > gb then v else gb

/-- The run-state fields of the initializer loop (lines 96-195): the slot
index being filled, the consecutive-failure counter, the evaluation
counter, the adaptive minimum-trade-count, and grand_best. -/
structure InitState where
  ind : ℕ
  failures : ℕ
  n_evals : ℕ
  mintrades : ℕ
  grand_best : ℚ
deriving DecidableEq

/-- One iteration of the initializer loop (lines 101-195) given the
criterion value of this trial, projected onto the run-state fields.  The
Boolean result reports whether the hard safety cap aborted the run (the
goto FINISHED at line 131).  Order follows the C code: evaluate and count,
unconditionally reseed grand_best while filling slot 0, then on a sentinel
score (value <= 0) abort when past the cap else retry the same slot with
the failure bookkeeping, and on a valid score advance with the guarded
grand_best update. -/
def init_step (max_evals : ℕ) (st : InitState) (value : ℚ) : InitState × Bool :=
  let gb1 := if st.ind = 0 then value else st.grand_best
  let n1 := st.n_evals + 1
  if value ≤ 0 then
    if n1 > max_evals then
      ({ st with grand_best := gb1, n_evals := n1 }, true)
    else if st.failures + 1 ≥ 500 then
      ({ st with grand_best := gb1, n_evals := n1, failures := 0
                 mintrades := max 1 (st.mintrades * 9 / 10) }, false)
    else
      ({ st with grand_best := gb1, n_evals := n1, failures := st.failures + 1 }, false)
  else
    ({ ind := st.ind + 1, failures := 0, n_evals := n1, mintrades := st.mintrades,
       grand_best := update_grand_best gb1 value }, false)

/-- The initializer loop over a list of successive criterion values.  On a
hard-cap abort the run jumps to FINISHED and returns the best-so-far score
together with the result code 0 (ret_code is still 0 there). -/
def init_run (max_evals : ℕ) : InitState → List ℚ → InitState × Option (ℚ × ℤ)
  | st, [] => (st, none)
  | st, v :: vs =>
    let r := init_step max_evals st v
    if r.2 then (r.1, some (r.1.grand_best, 0))
    else init_run max_evals r.1 vs

section ClaimC5

/-- C5: counterexample.  While the first population slot keeps failing
(score <= 0 forces a retry of slot 0), grand_best is reseeded
unconditionally on every trial of slot 0, so the assignment sequence
-5 then -7 strictly decreases, refuting monotonicity of all assignments. -/
theorem C5_counterexample :
    (init_step 1000000 ⟨0, 0, 0, 100, 0⟩ (-5)).1.grand_best = -5 ∧
      (init_step 1000000 ⟨0, 0, 0, 100, 0⟩ (-5)).1.ind = 0 ∧
      (init_step 1000000 (init_step 1000000 ⟨0, 0, 0, 100, 0⟩ (-5)).1 (-7)).1.grand_best = -7 ∧
      ¬ ((-5 : ℚ) ≤ -7) := by
  refine ⟨by norm_num [init_step], by norm_num [init_step], ?_, by norm_num⟩
  norm_num [init_step, update_grand_best]

/-- C5 (amended): once the first slot has been successfully filled
(ind ≥ 1), every initializer iteration leaves grand_best unchanged or
larger and keeps ind ≥ 1, so grand_best is monotone non-decreasing from
the first valid trial onward; and every guarded update (the only write
performed by the generational loop) never decreases it. -/
theorem C5_monotone_amended :
    (∀ (max_evals : ℕ) (st : InitState) (v : ℚ), 1 ≤ st.ind →
      st.grand_best ≤ (init_step max_evals st v).1.grand_best ∧
        1 ≤ (init_step max_evals st v).1.ind) ∧
    (∀ gb v : ℚ, gb ≤ update_grand_best gb v) := by
  constructor
  · intro max_evals st v hind
    have hne : st.ind ≠ 0 := by omega
    by_cases hv : v ≤ 0
    · by_cases hcap : st.n_evals + 1 > max_evals
      · simp [init_step, hv, hcap, hne]
        omega
      · by_cases hfail : st.failures + 1 ≥ 500
        · simp [init_step, hv, hcap, hfail, hne]
          omega
        · simp [init_step, hv, hcap, hfail, hne]
          omega
    · simp only [init_step, if_neg hv, if_neg hne]
      constructor
      · by_cases hgt : v > st.grand_best
        · simp only [update_grand_best, if_pos hgt]
          exact le_of_lt hgt
        · simp [update_grand_best, hgt]
      · omega
  · intro gb v
    by_cases hgt : v > gb
    · simp only [update_grand_best, if_pos hgt]
      exact le_of_lt hgt
    · simp [update_grand_best, hgt]

/-- C5 witness: the amended monotonicity applied at concrete inputs. -/
theorem C5_witness :
    ((3 : ℚ) ≤ (init_step 10 ⟨1, 0, 0, 100, 3⟩ 2).1.grand_best ∧
      1 ≤ (init_step 10 ⟨1, 0, 0, 100, 3⟩ 2).1.ind) ∧
      (0 : ℚ) ≤ update_grand_best 0 5 :=
  ⟨C5_monotone_amended.1 10 ⟨1, 0, 0, 100, 3⟩ 2 (by norm_num),
   C5_monotone_amended.2 0 5⟩

end ClaimC5

section ClaimC7

/-- C7: counterexample.  With max_evals = 1 and two valid trials the
evaluation count reaches 2 > 1 during initialization, yet the run does not
abort (scores are positive, so the cap test at line 130 is never reached). -/
theorem C7_counterexample :
    (init_run 1 ⟨0, 0, 0, 100, 0⟩ [5, 6]).2 = none ∧
      (init_run 1 ⟨0, 0, 0, 100, 0⟩ [5, 6]).1.n_evals = 2 ∧ 2 > 1 := by
  refine ⟨?_, ?_, by norm_num⟩ <;>
    norm_num [init_run, init_step, update_grand_best]

/-- C7 (amended): the initializer aborts exactly when a trial whose score is
a sentinel (value ≤ 0) pushes the evaluation count past max_evals; on that
abort path the run returns the current best-so-far score with result code
0, indistinguishable from normal completion. -/
theorem C7_abort_amended :
    (∀ (max_evals : ℕ) (st : InitState) (v : ℚ),
      (init_step max_evals st v).2 = true ↔ (v ≤ 0 ∧ st.n_evals + 1 > max_evals)) ∧
    (∀ (max_evals : ℕ) (st : InitState) (vs : List ℚ) (p : ℚ × ℤ),
      (init_run max_evals st vs).2 = some p →
        p.2 = 0 ∧ p.1 = (init_run max_evals st vs).1.grand_best) := by
  constructor
  · intro max_evals st v
    by_cases hv : v ≤ 0
    · by_cases hcap : st.n_evals + 1 > max_evals
      · simp [init_step, hv, hcap]
      · by_cases hfail : st.failures + 1 ≥ 500 <;> simp [init_step, hv, hcap, hfail]
    · simp [init_step, hv]
  · intro max_evals st vs
    induction vs generalizing st with
    | nil => intro p h; simp [init_run] at h
    | cons v vs ih =>
      intro p h
      simp only [init_run] at h ⊢
      by_cases hab : (init_step max_evals st v).2
      · rw [if_pos hab] at h ⊢
        cases h
        exact ⟨rfl, rfl⟩
      · rw [if_neg hab] at h ⊢
        exact ih _ p h

/-- C7 witness: the amended abort characterization at concrete inputs. -/
theorem C7_abort_witness :
    (init_step 0 ⟨0, 0, 0, 100, 0⟩ (-1)).2 = true ∧
      ((-1 : ℚ), (0 : ℤ)).2 = 0 ∧
      ((-1 : ℚ), (0 : ℤ)).1 = (init_run 0 ⟨0, 0, 0, 100, 0⟩ [-1]).1.grand_best :=
  ⟨(C7_abort_amended.1 0 ⟨0, 0, 0, 100, 0⟩ (-1)).mpr (by norm_num),
   C7_abort_amended.2 0 ⟨0, 0, 0, 100, 0⟩ [-1] ((-1 : ℚ), (0 : ℤ))
     (by norm_num [init_run, init_step])⟩

end ClaimC7

section ClaimC9

/-- C9: counterexample.  With the failure counter at 499 and threshold 15, a
further sentinel trial triggers the reduction; the code computes the C
integer division 15*9/10 = 13, while the claim's max(1, round(15*0.9)) is
14. -/
theorem C9_counterexample :
    ((init_step 1000 ⟨1, 499, 0, 15, 10⟩ (-1)).1.mintrades : ℤ) = 13 ∧
      max 1 (round ((15 : ℚ) * (9/10))) = (14 : ℤ) ∧ (13 : ℤ) ≠ 14 := by
  refine ⟨by norm_num [init_step], ?_, by norm_num⟩
  rw [show ((15 : ℚ) * (9/10)) = 27/2 by norm_num, round_eq]
  norm_num

/-- C9 (amended): when a sentinel trial (not aborting) raises the
consecutive-failure counter to 500, the minimum-trade-count threshold t is
replaced by max(1, t*9/10) using truncating integer division (a slightly
more than 10% reduction floored at 1) and the failure counter is reset to
0; the reduced value is carried in the state for subsequent evaluations. -/
theorem C9_mintrades_amended (max_evals : ℕ) (st : InitState) (v : ℚ)
    (hv : v ≤ 0) (hcap : ¬ st.n_evals + 1 > max_evals) (hfail : st.failures + 1 ≥ 500) :
    (init_step max_evals st v).1.mintrades = max 1 (st.mintrades * 9 / 10) ∧
      (init_step max_evals st v).1.failures = 0 := by
  simp [init_step, hv, hcap, hfail]

/-- C9 witness: the amended reduction rule at a concrete state. -/
theorem C9_witness :
    (init_step 1000 ⟨1, 499, 0, 15, 10⟩ (-1)).1.mintrades = 13 ∧
      (init_step 1000 ⟨1, 499, 0, 15, 10⟩ (-1)).1.failures = 0 := by
  have h := C9_mintrades_amended 1000 ⟨1, 499, 0, 15, 10⟩ (-1)
    (by norm_num) (by norm_num) (by norm_num)
  exact ⟨by rw [h.1]; decide, h.2⟩

end ClaimC9

/-- Result of an integer hill-climbing scan: the destination vector, the
local value variable, the ibase variable (best integer found), and the
success flag. -/
structure ClimbResult where
  dest : List ℚ
  value : ℚ
  ibase : ℤ
  success : Bool
deriving DecidableEq

/-- The upward integer scan of the hill climber (lines 357-371):
while (++ivar <= ihigh) try the next integer, keep going while the score
strictly improves, and on the first non-improving step restore dest[k] to
the best found and stop.  The fuel argument encodes ihigh - ivar, the
number of remaining loop entries, so that fuel = 0 means ++ivar would
exceed ihigh. -/
def climb_up (criter : List ℚ → ℚ) (k : ℕ) : ℕ → ℤ → ℤ → ℚ → List ℚ → ClimbResult
  | 0, _, ibase, value, dest => ⟨dest, value, ibase, false⟩
  | fuel + 1, ivar0, ibase, value, dest =>
    let ivar := ivar0 + 1
    let dest1 := dest.set k ((ivar : ℤ) : ℚ)
    let test := criter dest1
    if test > value then
      let r := climb_up criter k fuel ivar ivar test dest1
      ⟨r.dest, r.value, r.ibase, true⟩
    else
      ⟨dest1.set k ((ibase : ℤ) : ℚ), value, ibase, false⟩

/-- The downward integer scan of the hill climber (lines 373-390):
while (--ivar >= ilow), analogous to climb_up.  The fuel argument encodes
ivar - ilow. -/
def climb_down (criter : List ℚ → ℚ) (k : ℕ) : ℕ → ℤ → ℤ → ℚ → List ℚ → ClimbResult
  | 0, _, ibase, value, dest => ⟨dest, value, ibase, false⟩
  | fuel + 1, ivar0, ibase, value, dest =>
    let ivar := ivar0 - 1
    let dest1 := dest.set k ((ivar : ℤ) : ℚ)
    let test := criter dest1
    if test > value then
      let r := climb_down criter k fuel ivar ivar test dest1
      ⟨r.dest, r.value, r.ibase, true⟩
    else
      ⟨dest1.set k ((ibase : ℤ) : ℚ), value, ibase, false⟩

/-- The whole integer-dimension hill climb with the starting integer ibase
made explicit (lines 350-397): scan upward from ibase; if that never
improved, scan downward from ibase on the vector the upward scan left
behind.  When the upward scan fails, the C variables ibase and value are
provably unchanged, so the downward scan restarts from them. -/
def int_climb_core (criter : List ℚ → ℚ) (k : ℕ) (ilow ihigh ibase : ℤ) (value : ℚ)
    (dest : List ℚ) : ClimbResult :=
  if (climb_up criter k (ihigh - ibase).toNat ibase ibase value dest).success = true then
    climb_up criter k (ihigh - ibase).toNat ibase ibase value dest
  else
    climb_down criter k (ibase - ilow).toNat ibase ibase value
      (climb_up criter k (ihigh - ibase).toNat ibase ibase value dest).dest

/-- The integer-dimension hill climb, starting from ibase = (int) dest[k]
(line 351). -/
def int_climb (criter : List ℚ → ℚ) (k : ℕ) (ilow ihigh : ℤ) (value : ℚ)
    (dest : List ℚ) : ClimbResult :=
  int_climb_core criter k ilow ihigh (c_trunc (dest.getD k 0)) value dest

/-- The integer hill-climbing step applied to a population member whose
stored score is cand.score (the local variable value equals dest[nvars] on
entry).  Faithful to the C code, the stored score dest[nvars] is NEVER
written by this branch — only the local value variable is updated — so the
returned candidate keeps its old score while the returned rational carries
the possibly improved value. -/
def hill_climb_int_step (criter : List ℚ → ℚ) (lows highs : List ℚ) (k : ℕ)
    (cand : Candidate) : Candidate × ℚ :=
  let ilow := c_trunc (lows.getD k 0)
  let ihigh := c_trunc (highs.getD k 0)
  let r := int_climb criter k ilow ihigh cand.score cand.params
  (⟨r.dest, cand.score⟩, r.value)

/-- The real-dimension hill-climbing step (lines 401-447).  The external
glob_max / brentmax search is a black box; its refined output x2 is taken
as an arbitrary parameter.  The code writes x2 into dimension k, reapplies
ensure_legal to the whole vector, re-evaluates, and accepts (storing the
new score into dest[nvars]) only on strict improvement, else restores the
original value of dimension k and keeps the old score. -/
def hill_climb_real_step (criter : List ℚ → ℚ) (nints : ℕ) (lows highs : List ℚ)
    (k : ℕ) (x2 : ℚ) (cand : Candidate) : Candidate × ℚ :=
  let base := cand.params.getD k 0
  let p1 := (ensure_legal nints lows highs (cand.params.set k x2)).1
  let v := criter p1
  if v > cand.score then (⟨p1, v⟩, v)
  else (⟨p1.set k base, cand.score⟩, cand.score)

section ClaimC1

/-- C1: the integer hill-climb branch leaves a stale stored score.  With
criterion f(l) = l[0], bounds [0, 5] and the candidate ([2], score 1), the
upward scan walks to parameter 5 whose latest evaluation is 5, yet the
stored score stays 1; the real-dimension branch at the analogous input does
store the fresh score, showing the omission of dest[nvars] = value in the
integer branch (there is also no grand_best update there). -/
theorem C1_stale_score_bug :
    hill_climb_int_step (fun l => l.getD 0 0) [0] [5] 0 ⟨[2], 1⟩ = (⟨[5], 1⟩, 5) ∧
      (fun l => l.getD 0 0 : List ℚ → ℚ) [5] = 5 ∧ (5 : ℚ) ≠ 1 ∧
      (hill_climb_real_step (fun l => l.getD 0 0) 0 [0] [5] 0 3 ⟨[2], 1⟩).1.score = 3 := by
  refine ⟨?_, by norm_num, by norm_num, ?_⟩
  · norm_num [hill_climb_int_step, int_climb, int_climb_core, climb_up, climb_down,
      c_trunc, List.set]
  · norm_num [hill_climb_real_step, ensure_legal, legal_dim, c_round, c_trunc,
      penScale, List.set]

end ClaimC1

section ClimbFailLemmas

theorem climb_up_fail (criter : List ℚ → ℚ) (k : ℕ) :
    ∀ (fuel : ℕ) (ivar0 ibase : ℤ) (value : ℚ) (dest : List ℚ),
      k < dest.length → dest.getD k 0 = ((ibase : ℤ) : ℚ) →
      (climb_up criter k fuel ivar0 ibase value dest).success = false →
      climb_up criter k fuel ivar0 ibase value dest = ⟨dest, value, ibase, false⟩ := by
  intro fuel ivar0 ibase value dest hk hg h
  cases fuel with
  | zero => rfl
  | succ n =>
    by_cases himp : criter (dest.set k ((ivar0 + 1 : ℤ) : ℚ)) > value
    · simp only [climb_up, if_pos himp] at h
      exact Bool.noConfusion h
    · simp only [climb_up, if_neg himp, ClimbResult.mk.injEq, and_true]
      rw [List.set_set, ← hg]
      exact list_set_getD_self dest k hk

theorem climb_down_fail (criter : List ℚ → ℚ) (k : ℕ) :
    ∀ (fuel : ℕ) (ivar0 ibase : ℤ) (value : ℚ) (dest : List ℚ),
      k < dest.length → dest.getD k 0 = ((ibase : ℤ) : ℚ) →
      (climb_down criter k fuel ivar0 ibase value dest).success = false →
      climb_down criter k fuel ivar0 ibase value dest = ⟨dest, value, ibase, false⟩ := by
  intro fuel ivar0 ibase value dest hk hg h
  cases fuel with
  | zero => rfl
  | succ n =>
    by_cases himp : criter (dest.set k ((ivar0 - 1 : ℤ) : ℚ)) > value
    · simp only [climb_down, if_pos himp] at h
      exact Bool.noConfusion h
    · simp only [climb_down, if_neg himp, ClimbResult.mk.injEq, and_true]
      rw [List.set_set, ← hg]
      exact list_set_getD_self dest k hk

theorem int_climb_fail (criter : List ℚ → ℚ) (k : ℕ) (ilow ihigh : ℤ) (value : ℚ)
    (dest : List ℚ) (hk : k < dest.length)
    (hg : dest.getD k 0 = ((c_trunc (dest.getD k 0) : ℤ) : ℚ))
    (h : (int_climb criter k ilow ihigh value dest).success = false) :
    int_climb criter k ilow ihigh value dest =
      ⟨dest, value, c_trunc (dest.getD k 0), false⟩ := by
  by_cases hup : (climb_up criter k (ihigh - c_trunc (dest.getD k 0)).toNat
      (c_trunc (dest.getD k 0)) (c_trunc (dest.getD k 0)) value dest).success = true
  · have key : int_climb criter k ilow ihigh value dest =
        climb_up criter k (ihigh - c_trunc (dest.getD k 0)).toNat
          (c_trunc (dest.getD k 0)) (c_trunc (dest.getD k 0)) value dest := by
      unfold int_climb int_climb_core
      rw [if_pos hup]
    rw [key] at h
    rw [hup] at h
    exact Bool.noConfusion h
  · have hup2 : (climb_up criter k (ihigh - c_trunc (dest.getD k 0)).toNat
        (c_trunc (dest.getD k 0)) (c_trunc (dest.getD k 0)) value dest).success = false := by
      simp only [Bool.not_eq_true] at hup
      exact hup
    have hupf := climb_up_fail criter k (ihigh - c_trunc (dest.getD k 0)).toNat
      (c_trunc (dest.getD k 0)) (c_trunc (dest.getD k 0)) value dest hk hg hup2
    have key : int_climb criter k ilow ihigh value dest =
        climb_down criter k (c_trunc (dest.getD k 0) - ilow).toNat
          (c_trunc (dest.getD k 0)) (c_trunc (dest.getD k 0)) value dest := by
      unfold int_climb int_climb_core
      rw [if_neg hup, hupf]
    rw [key] at h
    rw [key]
    exact climb_down_fail criter k _ _ _ _ _ hk hg h

end ClimbFailLemmas

section EnsureLegalRestore

/-- Repairing a legal vector in which one dimension was overwritten, then
restoring that dimension's original value, gives back the original vector:
ensure_legal acts dimension-by-dimension and fixes the untouched (legal)
dimensions. -/
theorem ensure_legal_set_restore :
    ∀ (nints : ℕ) (lows highs xs : List ℚ) (k : ℕ) (x : ℚ),
      inBounds lows highs xs = true → intsIntegral nints xs = true →
      ((ensure_legal nints lows highs (xs.set k x)).1).set k (xs.getD k 0) = xs := by
  intro nints lows highs xs
  induction xs generalizing nints lows highs with
  | nil =>
    intro k x hb _
    cases lows with
    | nil =>
      cases highs with
      | nil => simp [ensure_legal]
      | cons hi highs => simp [inBounds] at hb
    | cons lo lows => simp [inBounds] at hb
  | cons x0 xs ih =>
    intro k x hb hint
    cases lows with
    | nil => simp [inBounds] at hb
    | cons lo lows =>
      cases highs with
      | nil => simp [inBounds] at hb
      | cons hi highs =>
        simp only [inBounds, Bool.and_eq_true, decide_eq_true_eq] at hb
        obtain ⟨⟨hlo, hhi⟩, hbtail⟩ := hb
        have hint1 : (decide (0 < nints)) = true → ∃ m : ℤ, x0 = (m : ℚ) := by
          intro hpos
          simp only [decide_eq_true_eq] at hpos
          obtain ⟨n, rfl⟩ : ∃ n, nints = n + 1 := ⟨nints - 1, by omega⟩
          simp only [intsIntegral, Bool.and_eq_true, decide_eq_true_eq] at hint
          exact ⟨⌊x0⌋, hint.1⟩
        have htail : intsIntegral (nints - 1) xs = true := by
          match nints, hint with
          | 0, _ => simp [intsIntegral]
          | n + 1, hint =>
            simp only [intsIntegral, Bool.and_eq_true] at hint
            simpa using hint.2
        cases k with
        | zero =>
          simp only [List.set_cons_zero, List.getD_cons_zero, ensure_legal,
            ensure_legal_fix (nints - 1) lows highs xs hbtail htail]
        | succ k =>
          simp only [List.set_cons_succ, List.getD_cons_succ, ensure_legal,
            legal_dim_fix hint1 hlo hhi]
          rw [ih (nints - 1) lows highs k x hbtail htail]

end EnsureLegalRestore

section ClaimC8

/-- C8: a hill-climbing step that fails to strictly improve the candidate's
pre-hill-climb score is fully undone.  Integer dimension: when neither scan
succeeds, the destination vector and the local value are exactly the
originals (the stored score was never touched).  Real dimension: when the
re-evaluated score does not exceed the pre-hill-climb score, the tweaked
dimension is restored exactly, every other dimension is untouched, and the
stored score is the pre-hill-climb score. -/
theorem C8_failed_climb_undone :
    (∀ (criter : List ℚ → ℚ) (lows highs : List ℚ) (k : ℕ) (cand : Candidate),
      k < cand.params.length → (∃ m : ℤ, cand.params.getD k 0 = ((m : ℤ) : ℚ)) →
      (int_climb criter k (c_trunc (lows.getD k 0)) (c_trunc (highs.getD k 0))
          cand.score cand.params).success = false →
      hill_climb_int_step criter lows highs k cand = (cand, cand.score)) ∧
    (∀ (criter : List ℚ → ℚ) (nints : ℕ) (lows highs : List ℚ) (k : ℕ) (x2 : ℚ)
        (cand : Candidate),
      inBounds lows highs cand.params = true → intsIntegral nints cand.params = true →
      ¬ criter ((ensure_legal nints lows highs (cand.params.set k x2)).1) > cand.score →
      hill_climb_real_step criter nints lows highs k x2 cand = (cand, cand.score)) := by
  constructor
  · intro criter lows highs k cand hk hint h
    obtain ⟨m, hm⟩ := hint
    have hg : cand.params.getD k 0 = ((c_trunc (cand.params.getD k 0) : ℤ) : ℚ) := by
      rw [hm, c_trunc_intCast]
    have hfail := int_climb_fail criter k (c_trunc (lows.getD k 0))
      (c_trunc (highs.getD k 0)) cand.score cand.params hk hg h
    simp only [hill_climb_int_step, hfail]
  · intro criter nints lows highs k x2 cand hb hint h
    simp only [hill_climb_real_step, if_neg h]
    rw [ensure_legal_set_restore nints lows highs cand.params k x2 hb hint]

/-- C8 witness: both failing branches fully undone at concrete inputs (the
constant-zero criterion never improves the stored score 5). -/
theorem C8_witness :
    hill_climb_int_step (fun _ => 0) [0] [4] 0 ⟨[2], 5⟩ = (⟨[2], 5⟩, 5) ∧
      hill_climb_real_step (fun _ => 0) 1 [0] [4] 0 (7/2) ⟨[2], 5⟩ = (⟨[2], 5⟩, 5) :=
  ⟨C8_failed_climb_undone.1 (fun _ => 0) [0] [4] 0 ⟨[2], 5⟩ (by norm_num)
      ⟨2, by norm_num⟩ (by decide),
   C8_failed_climb_undone.2 (fun _ => 0) 1 [0] [4] 0 (7/2) ⟨[2], 5⟩ (by decide)
      (by decide) (by norm_num)⟩

end ClaimC8

/-- One dimension of the initializer's random candidate generation
(lines 108-118): integer dimensions draw low + (int)(u * (high - low + 1))
clamped to high for safety; real dimensions draw low + u * (high - low). -/
def init_dim (isInt : Bool) (lo hi u : ℚ) : ℚ :=
  if isInt then
    if lo + ((c_trunc (u * (hi - lo + 1)) : ℤ) : ℚ) > hi then hi
    else lo + ((c_trunc (u * (hi - lo + 1)) : ℤ) : ℚ)
  else lo + u * (hi - lo)

section ClimbShapeLemmas

theorem climb_up_shape (criter : List ℚ → ℚ) (k : ℕ) :
    ∀ (fuel : ℕ) (ivar0 ibase : ℤ) (value : ℚ) (dest : List ℚ),
      k < dest.length → dest.getD k 0 = ((ibase : ℤ) : ℚ) → ibase ≤ ivar0 →
      ∃ m : ℤ, ibase ≤ m ∧ m ≤ ivar0 + fuel ∧
        (climb_up criter k fuel ivar0 ibase value dest).dest = dest.set k ((m : ℤ) : ℚ) ∧
        (climb_up criter k fuel ivar0 ibase value dest).ibase = m := by
  intro fuel
  induction fuel with
  | zero =>
    intro ivar0 ibase value dest hk hg hle
    refine ⟨ibase, le_refl _, by omega, ?_, by simp [climb_up]⟩
    simp only [climb_up]
    rw [← hg]
    exact (list_set_getD_self dest k hk).symm
  | succ n ih =>
    intro ivar0 ibase value dest hk hg hle
    by_cases himp : criter (dest.set k ((ivar0 + 1 : ℤ) : ℚ)) > value
    · obtain ⟨m, hm1, hm2, hd, hb⟩ := ih (ivar0 + 1) (ivar0 + 1)
        (criter (dest.set k ((ivar0 + 1 : ℤ) : ℚ))) (dest.set k ((ivar0 + 1 : ℤ) : ℚ))
        (by simpa using hk) (list_getD_set_self dest k _ hk) (le_refl _)
      refine ⟨m, by omega, by omega, ?_, ?_⟩
      · simp only [climb_up, if_pos himp]
        rw [hd, List.set_set]
      · simp only [climb_up, if_pos himp]
        rw [hb]
    · refine ⟨ibase, le_refl _, by omega, ?_, by simp only [climb_up, if_neg himp]⟩
      simp only [climb_up, if_neg himp]
      rw [List.set_set]

theorem climb_down_shape (criter : List ℚ → ℚ) (k : ℕ) :
    ∀ (fuel : ℕ) (ivar0 ibase : ℤ) (value : ℚ) (dest : List ℚ),
      k < dest.length → dest.getD k 0 = ((ibase : ℤ) : ℚ) → ivar0 ≤ ibase →
      ∃ m : ℤ, ivar0 - fuel ≤ m ∧ m ≤ ibase ∧
        (climb_down criter k fuel ivar0 ibase value dest).dest = dest.set k ((m : ℤ) : ℚ) ∧
        (climb_down criter k fuel ivar0 ibase value dest).ibase = m := by
  intro fuel
  induction fuel with
  | zero =>
    intro ivar0 ibase value dest hk hg hle
    refine ⟨ibase, by omega, le_refl _, ?_, by simp [climb_down]⟩
    simp only [climb_down]
    rw [← hg]
    exact (list_set_getD_self dest k hk).symm
  | succ n ih =>
    intro ivar0 ibase value dest hk hg hle
    by_cases himp : criter (dest.set k ((ivar0 - 1 : ℤ) : ℚ)) > value
    · obtain ⟨m, hm1, hm2, hd, hb⟩ := ih (ivar0 - 1) (ivar0 - 1)
        (criter (dest.set k ((ivar0 - 1 : ℤ) : ℚ))) (dest.set k ((ivar0 - 1 : ℤ) : ℚ))
        (by simpa using hk) (list_getD_set_self dest k _ hk) (le_refl _)
      refine ⟨m, by omega, by omega, ?_, ?_⟩
      · simp only [climb_down, if_pos himp]
        rw [hd, List.set_set]
      · simp only [climb_down, if_pos himp]
        rw [hb]
    · refine ⟨ibase, by omega, le_refl _, ?_, by simp only [climb_down, if_neg himp]⟩
      simp only [climb_down, if_neg himp]
      rw [List.set_set]

theorem int_climb_core_shape (criter : List ℚ → ℚ) (k : ℕ) (ilow ihigh ibase : ℤ)
    (value : ℚ) (dest : List ℚ) (hk : k < dest.length)
    (hg : dest.getD k 0 = ((ibase : ℤ) : ℚ)) (hlo : ilow ≤ ibase) (hhi : ibase ≤ ihigh) :
    ∃ m : ℤ, ilow ≤ m ∧ m ≤ ihigh ∧
      (int_climb_core criter k ilow ihigh ibase value dest).dest =
        dest.set k ((m : ℤ) : ℚ) := by
  by_cases hup : (climb_up criter k (ihigh - ibase).toNat ibase ibase value dest).success = true
  · obtain ⟨m, hm1, hm2, hd, _⟩ :=
      climb_up_shape criter k (ihigh - ibase).toNat ibase ibase value dest hk hg (le_refl _)
    refine ⟨m, by omega, by omega, ?_⟩
    unfold int_climb_core
    rw [if_pos hup, hd]
  · have hup2 : (climb_up criter k (ihigh - ibase).toNat ibase ibase value dest).success
        = false := by
      simp only [Bool.not_eq_true] at hup
      exact hup
    have hupf := climb_up_fail criter k (ihigh - ibase).toNat ibase ibase value dest hk hg hup2
    obtain ⟨m, hm1, hm2, hd, _⟩ :=
      climb_down_shape criter k (ibase - ilow).toNat ibase ibase value dest hk hg (le_refl _)
    refine ⟨m, by omega, by omega, ?_⟩
    unfold int_climb_core
    rw [if_neg hup, hupf]
    exact hd

end ClimbShapeLemmas

section ClaimC6

theorem init_dim_mem (b : Bool) (lo hi u : ℚ) (hlh : lo ≤ hi) (hu0 : 0 ≤ u)
    (hu1 : u < 1) : lo ≤ init_dim b lo hi u ∧ init_dim b lo hi u ≤ hi := by
  cases b with
  | false =>
    simp only [init_dim, Bool.false_eq_true, if_false]
    constructor
    · nlinarith
    · nlinarith
  | true =>
    have harg : (0 : ℚ) ≤ u * (hi - lo + 1) := by nlinarith
    have hfl : (0 : ℤ) ≤ c_trunc (u * (hi - lo + 1)) := by
      rw [c_trunc_of_nonneg harg]
      exact Int.floor_nonneg.mpr harg
    have hcast : (0 : ℚ) ≤ ((c_trunc (u * (hi - lo + 1)) : ℤ) : ℚ) := by
      exact_mod_cast hfl
    simp only [init_dim, if_true]
    by_cases hclamp : lo + ((c_trunc (u * (hi - lo + 1)) : ℤ) : ℚ) > hi
    · rw [if_pos hclamp]
      exact ⟨hlh, le_refl _⟩
    · rw [if_neg hclamp]
      exact ⟨by linarith, le_of_not_lt hclamp⟩

/-- C6: every write of a candidate into a population slot lands inside the
configured bounds: the initializer's random generation per dimension, the
legality-enforced DE child, the selection step's destination, the integer
hill-climbing step (given integral bounds on the integer dimension, as the
code's (int) casts presuppose), and the real hill-climbing step. -/
theorem C6_population_in_bounds :
    (∀ (b : Bool) (lo hi u : ℚ), lo ≤ hi → 0 ≤ u → u < 1 →
      lo ≤ init_dim b lo hi u ∧ init_dim b lo hi u ≤ hi) ∧
    (∀ (nints : ℕ) (lows highs xs : List ℚ), boundsOK lows highs = true →
      xs.length = lows.length →
      inBounds lows highs (ensure_legal nints lows highs xs).1 = true) ∧
    (∀ (criter : List ℚ → ℚ) (nints nvars : ℕ) (lows highs : List ℚ)
        (parent1 : Candidate) (p2 d1 d2 : ℕ → ℚ) (jstart : ℕ) (u : ℕ → ℚ)
        (pcross mdev : ℚ), boundsOK lows highs = true → nvars = lows.length →
      inBounds lows highs parent1.params = true →
      inBounds lows highs
        (de_step criter nints nvars lows highs parent1 p2 d1 d2 jstart u
          pcross mdev).params = true) ∧
    (∀ (criter : List ℚ → ℚ) (lows highs : List ℚ) (k : ℕ) (cand : Candidate)
        (il ih m0 : ℤ),
      inBounds lows highs cand.params = true → k < cand.params.length →
      lows.getD k 0 = ((il : ℤ) : ℚ) → highs.getD k 0 = ((ih : ℤ) : ℚ) →
      cand.params.getD k 0 = ((m0 : ℤ) : ℚ) →
      inBounds lows highs (hill_climb_int_step criter lows highs k cand).1.params = true) ∧
    (∀ (criter : List ℚ → ℚ) (nints : ℕ) (lows highs : List ℚ) (k : ℕ) (x2 : ℚ)
        (cand : Candidate), boundsOK lows highs = true →
      inBounds lows highs cand.params = true → k < cand.params.length →
      inBounds lows highs
        (hill_climb_real_step criter nints lows highs k x2 cand).1.params = true) := by
  refine ⟨init_dim_mem, ensure_legal_inBounds, ?_, ?_, ?_⟩
  · intro criter nints nvars lows highs parent1 p2 d1 d2 jstart u pcross mdev hbok hnv hb
    by_cases hv : criter (de_child nints nvars lows highs p2 d1 d2 jstart u pcross mdev
        (fun i => parent1.params.getD i 0)) > parent1.score
    · simp only [de_step, if_pos hv]
      unfold de_child
      exact ensure_legal_inBounds nints lows highs _ hbok (by simp [hnv])
    · simp only [de_step, if_neg hv]
      exact hb
  · intro criter lows highs k cand il ih m0 hb hk hil hih hm
    have hbounds := inBounds_getD hb k hk
    have hlo : il ≤ m0 := by
      have := hbounds.1
      rw [hil, hm] at this
      exact_mod_cast this
    have hhi : m0 ≤ ih := by
      have := hbounds.2
      rw [hih, hm] at this
      exact_mod_cast this
    obtain ⟨m, hm1, hm2, hd⟩ := int_climb_core_shape criter k il ih m0 cand.score
      cand.params hk hm hlo hhi
    have key : (hill_climb_int_step criter lows highs k cand).1.params =
        cand.params.set k ((m : ℤ) : ℚ) := by
      simp only [hill_climb_int_step, int_climb, hil, hih, hm, c_trunc_intCast]
      exact hd
    rw [key]
    refine inBounds_set hb k _ ?_ ?_
    · rw [hil]
      exact_mod_cast hm1
    · rw [hih]
      exact_mod_cast hm2
  · intro criter nints lows highs k x2 cand hbok hb hk
    have hlen := (inBounds_length hb).1
    have hp1 : inBounds lows highs
        ((ensure_legal nints lows highs (cand.params.set k x2)).1) = true :=
      ensure_legal_inBounds nints lows highs _ hbok (by simp [hlen])
    by_cases hv : criter ((ensure_legal nints lows highs (cand.params.set k x2)).1) >
        cand.score
    · simp only [hill_climb_real_step, if_pos hv]
      exact hp1
    · simp only [hill_climb_real_step, if_neg hv]
      have hbase := inBounds_getD hb k hk
      exact inBounds_set hp1 k _ hbase.1 hbase.2

/-- C6 witness: each in-bounds statement at concrete inputs. -/
theorem C6_witness :
    ((1 : ℚ) ≤ init_dim true 1 3 (1/2) ∧ init_dim true 1 3 (1/2) ≤ 3) ∧
      inBounds [0] [4] (ensure_legal 1 [0] [4] [23/5]).1 = true ∧
      inBounds [0] [4]
        (de_step (fun _ => 1) 1 1 [0] [4] ⟨[2], 0⟩ (fun _ => 9) (fun _ => 0)
          (fun _ => 0) 0 (fun _ => 0) 1 1).params = true ∧
      inBounds [0] [4]
        (hill_climb_int_step (fun l => l.getD 0 0) [0] [4] 0 ⟨[2], 1⟩).1.params = true ∧
      inBounds [0] [4]
        (hill_climb_real_step (fun _ => 0) 1 [0] [4] 0 (7/2) ⟨[2], 5⟩).1.params = true :=
  ⟨C6_population_in_bounds.1 true 1 3 (1/2) (by norm_num) (by norm_num) (by norm_num),
   C6_population_in_bounds.2.1 1 [0] [4] [23/5] (by decide) (by decide),
   C6_population_in_bounds.2.2.1 (fun _ => 1) 1 1 [0] [4] ⟨[2], 0⟩ (fun _ => 9)
     (fun _ => 0) (fun _ => 0) 0 (fun _ => 0) 1 1 (by decide) (by decide) (by decide),
   C6_population_in_bounds.2.2.2.1 (fun l => l.getD 0 0) [0] [4] 0 ⟨[2], 1⟩ 0 4 2
     (by decide) (by decide) (by decide) (by decide) (by decide),
   C6_population_in_bounds.2.2.2.2 (fun _ => 0) 1 [0] [4] 0 (7/2) ⟨[2], 5⟩
     (by decide) (by decide) (by decide)⟩

end ClaimC6

end DiffEv
